import Mathlib

/-!
Verification of the `@creditkarma/dynamic-config` configuration-resolution
engine against its natural-language specification.

The repository ships the TypeScript type declarations (`types.ts`), the
error classes (`src/main/errors/index.ts`) and constants; the engine
itself (deep merge, placeholder resolution, async tree resolver, query
facade) is documented in the README and in the specification.  The data
model below is embedded from the type declarations; the operations are
modelled from the specification where the implementation files are not
part of the source tree.
-/

namespace DynamicConfig

/-- `SourceType` from types.ts: `'local' | 'remote' | 'secret' | 'env' | 'process'`. -/
inductive SourceType where
  | localSource
  | remoteSource
  | secretSource
  | envSource
  | processSource
deriving DecidableEq, Repr

/-- `ISource` from types.ts: provenance tag `{ type: SourceType, name: string }`. -/
structure ISource where
  type : SourceType
  name : String
deriving DecidableEq, Repr

/-- `ObjectType` from types.ts: `'object' | 'array' | 'string' | 'number' | 'boolean'`. -/
inductive ObjectType where
  | object
  | array
  | string
  | number
  | boolean
deriving DecidableEq, Repr

/-- `ResolverType` from types.ts: `'remote' | 'secret'`. -/
inductive ResolverType where
  | remote
  | secret
deriving DecidableEq, Repr

/-- `WatchFunction` from types.ts is `(val: any) => void`, an opaque callback.
Callbacks are never invoked by the library (watch semantics is a roadmap gap),
so a callback is modelled as an abstract identifier. -/
structure WatchFunction where
  id : Nat
deriving DecidableEq, Repr

/-- A JSON-like raw value as produced by file loaders and resolvers, before
it is lifted into the config value tree.  `deferred id` stands for a pending
asynchronous computation embedded in the data (a nested `Promise`); its
eventual outcome is supplied by an environment mapping identifiers to
results. -/
inductive JsonValue where
  | str (s : String)
  | num (n : Int)
  | bool (b : Bool)
  | arr (items : List JsonValue)
  | obj (props : List (String × JsonValue))
  | deferred (id : Nat)

/-- `IConfigPlaceholder` from types.ts:
`{ _source: string, _key: string, _type?: ObjectType, _default?: any }`. -/
structure IConfigPlaceholder where
  source : String
  key : String
  typeHint : Option ObjectType
  defaultVal : Option JsonValue

/-- The payload of an `IPrimitiveConfigValue` from types.ts:
`value: string | number | boolean`. -/
inductive PrimitiveValue where
  | pstr (s : String)
  | pnum (n : Int)
  | pbool (b : Bool)

/-- `BaseConfigValue` from types.ts: the tagged union
`IObjectConfigValue | IArrayConfigValue | IPrimitiveConfigValue |
IPromisedConfigValue | IPlaceholderConfigValue`.  Every variant extends
`IBaseConfigValue` and therefore carries a `source` tag and a `watchers`
list.  Object properties are the insertion-ordered key/value pairs of
`IConfigProperties`. -/
inductive BaseConfigValue where
  | objectValue (source : ISource) (watchers : List WatchFunction)
      (properties : List (String × BaseConfigValue))
  | arrayValue (source : ISource) (watchers : List WatchFunction)
      (items : List BaseConfigValue)
  | primitiveValue (source : ISource) (watchers : List WatchFunction)
      (value : PrimitiveValue)
  | promisedValue (source : ISource) (watchers : List WatchFunction)
      (value : Nat)
  | placeholderValue (source : ISource) (watchers : List WatchFunction)
      (value : IConfigPlaceholder)

/-- `IRootConfigValue` from types.ts: `{ type: 'root', properties: IConfigProperties }`. -/
structure IRootConfigValue where
  properties : List (String × BaseConfigValue)

/-- `ConfigValue` from types.ts: `IRootConfigValue | BaseConfigValue`. -/
inductive ConfigValue where
  | ofRoot (root : IRootConfigValue)
  | ofBase (value : BaseConfigValue)

/-- First value bound to `key` in an insertion-ordered property list
(JS object property lookup). -/
def findProp {κ α : Type} [BEq κ] (key : κ) : List (κ × α) → Option α
  | [] => none
  | (k, v) :: rest => if k == key then some v else findProp key rest

/-- `true` exactly on `Object` nodes (used to phrase the merge rule
"if both sides are Object, merge recursively, otherwise overlay wins"). -/
def isObjNode : BaseConfigValue → Bool
  | .objectValue _ _ _ => true
  | _ => false

mutual

/-- Modelled from the spec (§4.2 Deep Merge); the merge implementation file is
not part of the source tree.  `merge(base, overlay)` recurses into `Object`
nodes key-by-key; for a key present in both sides, if both values are
`Object` they are merged recursively, otherwise the overlay value replaces
the base value wholesale; keys present in only one side carry through
unchanged. -/
def mergeBase : BaseConfigValue → BaseConfigValue → BaseConfigValue
  | .objectValue _ _ ps, .objectValue s' w' ps' =>
      .objectValue s' w'
        (mergeProps ps ps' ++ ps'.filter (fun pr => (findProp pr.1 ps).isNone))
  | _, overlay => overlay

/-- Modelled from the spec (§4.2): the base property list with every key that
also occurs in the overlay replaced by the merge of the two values. -/
def mergeProps :
    List (String × BaseConfigValue) → List (String × BaseConfigValue) →
    List (String × BaseConfigValue)
  | [], _ => []
  | (k, v) :: rest, ov =>
      (match findProp k ov with
       | some v' => (k, mergeBase v v')
       | none => (k, v)) :: mergeProps rest ov

end

/-- Modelled from the spec (§4.2): the merged property list of an
`Object`/`Root` node — base keys (merged where the overlay also has them)
followed by the overlay-only keys in overlay order. -/
def overlayProps (ps ps' : List (String × BaseConfigValue)) :
    List (String × BaseConfigValue) :=
  mergeProps ps ps' ++ ps'.filter (fun pr => (findProp pr.1 ps).isNone)

/-- Modelled from the spec (§4.2): `merge` at the `Root` node, key-by-key like
an `Object` node. -/
def mergeRoot (base overlay : IRootConfigValue) : IRootConfigValue :=
  ⟨overlayProps base.properties overlay.properties⟩

theorem findProp_append {κ α : Type} [BEq κ] (key : κ) (l₁ l₂ : List (κ × α)) :
    findProp key (l₁ ++ l₂) =
      match findProp key l₁ with
      | some v => some v
      | none => findProp key l₂ := by
  induction l₁ with
  | nil => simp [findProp]
  | cons hd tl ih =>
      obtain ⟨k, v⟩ := hd
      by_cases h : k == key <;> simp [findProp, h, ih]

theorem findProp_mergeProps (k : String)
    (ps ov : List (String × BaseConfigValue)) :
    findProp k (mergeProps ps ov) =
      match findProp k ps with
      | some v =>
          some (match findProp k ov with
                | some v' => mergeBase v v'
                | none => v)
      | none => none := by
  induction ps with
  | nil => simp [findProp, mergeProps]
  | cons hd tl ih =>
      obtain ⟨k₁, v₁⟩ := hd
      by_cases h : k₁ == k
      · have hk : k₁ = k := by simpa using h
        subst hk
        cases hov : findProp k₁ ov <;>
          simp [mergeProps, findProp, hov]
      · cases hov : findProp k₁ ov <;>
          simp [mergeProps, findProp, h, hov, ih]

theorem findProp_filterNew (k : String)
    (ps ov : List (String × BaseConfigValue)) :
    findProp k (ov.filter (fun pr => (findProp pr.1 ps).isNone)) =
      if (findProp k ps).isNone then findProp k ov else none := by
  induction ov with
  | nil => simp [findProp]
  | cons hd tl ih =>
      obtain ⟨k₁, v₁⟩ := hd
      by_cases h : k₁ == k
      · have hk : k₁ = k := by simpa using h
        subst hk
        by_cases hnew : (findProp k₁ ps).isNone <;>
          simp [List.filter, findProp, hnew, ih]
      · by_cases hnew : (findProp k₁ ps).isNone <;>
          simp [List.filter, findProp, h, hnew, ih]

theorem findProp_overlayProps (k : String)
    (ps ps' : List (String × BaseConfigValue)) :
    findProp k (overlayProps ps ps') =
      match findProp k ps, findProp k ps' with
      | some v, some v' => some (mergeBase v v')
      | some v, none => some v
      | none, r => r := by
  rw [overlayProps, findProp_append, findProp_mergeProps, findProp_filterNew]
  cases hb : findProp k ps <;> cases ho : findProp k ps' <;> simp

theorem mergeProps_nil (ps : List (String × BaseConfigValue)) :
    mergeProps ps [] = ps := by
  induction ps with
  | nil => rfl
  | cons hd tl ih =>
      obtain ⟨k, v⟩ := hd
      simp [mergeProps, findProp, ih]

/-- C1: `merge(base, overlay)` recurses key-by-key into `Object`/`Root`
nodes: at the root, a key present in both sides maps to the merge of the two
values, and a key present in only one side carries through unchanged; on two
`Object` nodes the merge recurses into the property lists; on any other pair
the overlay value replaces the base value wholesale (arrays and primitives
are never concatenated or element-wise combined). -/
theorem merge_overlay_semantics (b o : IRootConfigValue) (k : String) :
    (findProp k (mergeRoot b o).properties =
       match findProp k b.properties, findProp k o.properties with
       | some v, some v' => some (mergeBase v v')
       | some v, none => some v
       | none, r => r)
    ∧ (∀ (s s' : ISource) (w w' : List WatchFunction)
         (ps ps' : List (String × BaseConfigValue)),
         mergeBase (.objectValue s w ps) (.objectValue s' w' ps') =
           .objectValue s' w' (overlayProps ps ps'))
    ∧ (∀ v v' : BaseConfigValue,
         isObjNode v = false ∨ isObjNode v' = false → mergeBase v v' = v') := by
  refine ⟨findProp_overlayProps k b.properties o.properties, ?_, ?_⟩
  · intro s s' w w' ps ps'
    simp [mergeBase, overlayProps]
  · intro v v' h
    cases v <;> cases v' <;> simp_all [mergeBase, isObjNode]

/-- Witness for C1 at a concrete input: a primitive base value and an array
overlay value are not both objects, so the overlay replaces the base
wholesale. -/
theorem merge_overlay_semantics_witness :
    mergeBase
      (.primitiveValue ⟨.localSource, "local"⟩ [] (.pnum 1))
      (.arrayValue ⟨.remoteSource, "consul"⟩ [] []) =
      .arrayValue ⟨.remoteSource, "consul"⟩ [] [] :=
  (merge_overlay_semantics ⟨[]⟩ ⟨[]⟩ "k").2.2
    (.primitiveValue ⟨.localSource, "local"⟩ [] (.pnum 1))
    (.arrayValue ⟨.remoteSource, "consul"⟩ [] [])
    (Or.inl rfl)

/-- C6: merging with an empty overlay is the identity, and on a key bound to
a scalar (`Primitive`) value in both sides the overlay's value is the value
in the result. -/
theorem merge_empty_identity_overlay_wins (a o : IRootConfigValue)
    (k : String) (s s' : ISource) (w w' : List WatchFunction)
    (pv pv' : PrimitiveValue) :
    mergeRoot a ⟨[]⟩ = a
    ∧ (findProp k a.properties = some (.primitiveValue s w pv) →
       findProp k o.properties = some (.primitiveValue s' w' pv') →
       findProp k (mergeRoot a o).properties =
         some (.primitiveValue s' w' pv')) := by
  constructor
  · obtain ⟨ps⟩ := a
    simp [mergeRoot, overlayProps, mergeProps_nil]
  · intro ha ho
    rw [show (mergeRoot a o).properties = overlayProps a.properties o.properties
          from rfl,
        findProp_overlayProps, ha, ho]
    simp [mergeBase]

/-- Witness for C6 at a concrete input: base binds `port` to `8080`, overlay
binds `port` to `9090`; the merged tree binds `port` to the overlay's value. -/
theorem merge_empty_identity_overlay_wins_witness :
    findProp "port"
      (mergeRoot
        ⟨[("port", .primitiveValue ⟨.localSource, "default"⟩ [] (.pnum 8080))]⟩
        ⟨[("port", .primitiveValue ⟨.localSource, "development"⟩ [] (.pnum 9090))]⟩).properties
      = some (.primitiveValue ⟨.localSource, "development"⟩ [] (.pnum 9090)) :=
  (merge_empty_identity_overlay_wins
    ⟨[("port", .primitiveValue ⟨.localSource, "default"⟩ [] (.pnum 8080))]⟩
    ⟨[("port", .primitiveValue ⟨.localSource, "development"⟩ [] (.pnum 9090))]⟩
    "port" ⟨.localSource, "default"⟩ ⟨.localSource, "development"⟩ [] []
    (.pnum 8080) (.pnum 9090)).2 rfl rfl

/-- The reserved property names of a config placeholder wire object
(`_source`, `_key` required; `_default`, `_type` optional). -/
def placeholderKeys : List String := ["_source", "_key", "_default", "_type"]

/-- Parse of the `_type` property into an `ObjectType`. -/
def parseObjectType : JsonValue → Option ObjectType
  | .str "object" => some .object
  | .str "array" => some .array
  | .str "string" => some .string
  | .str "number" => some .number
  | .str "boolean" => some .boolean
  | _ => none

/-- Modelled from the spec (§4.1): detection of the placeholder wire shape —
an object whose keys are exactly `{_source,_key}` plus optional
`{_default,_type}`, with string `_source` and `_key`.  Returns the parsed
`IConfigPlaceholder` when the shape matches. -/
def parsePlaceholder (props : List (String × JsonValue)) :
    Option IConfigPlaceholder :=
  match findProp "_source" props, findProp "_key" props with
  | some (.str srcName), some (.str key) =>
      if props.all (fun pr => placeholderKeys.contains pr.1) then
        some { source := srcName, key := key,
               typeHint := (findProp "_type" props).bind parseObjectType,
               defaultVal := findProp "_default" props }
      else none
  | _, _ => none

mutual

/-- Modelled from the spec (§4.1 Config Value Tree); the tree-construction
implementation file is not part of the source tree.  Lifting classifies a
JSON-like value: a placeholder-shaped object becomes `Placeholder`, a
pending asynchronous computation becomes `Promise`, other objects/arrays
recurse, everything else becomes `Primitive`.  Every constructed node
carries the given `source` tag and an empty `watchers` list. -/
def lift (s : ISource) : JsonValue → BaseConfigValue
  | .str v => .primitiveValue s [] (.pstr v)
  | .num v => .primitiveValue s [] (.pnum v)
  | .bool v => .primitiveValue s [] (.pbool v)
  | .deferred id => .promisedValue s [] id
  | .arr items => .arrayValue s [] (liftItems s items)
  | .obj props =>
      match parsePlaceholder props with
      | some p => .placeholderValue s [] p
      | none => .objectValue s [] (liftProps s props)

/-- Modelled from the spec (§4.1): lifting of the property list of a
non-placeholder object, key order preserved. -/
def liftProps (s : ISource) :
    List (String × JsonValue) → List (String × BaseConfigValue)
  | [] => []
  | (k, v) :: rest => (k, lift s v) :: liftProps s rest

/-- Modelled from the spec (§4.1): lifting of the items of an array, order
preserved. -/
def liftItems (s : ISource) : List JsonValue → List BaseConfigValue
  | [] => []
  | v :: rest => lift s v :: liftItems s rest

end

/-- The `source` tag carried by every non-root config value node
(`IBaseConfigValue.source` in types.ts). -/
def sourceOf : BaseConfigValue → ISource
  | .objectValue s _ _ => s
  | .arrayValue s _ _ => s
  | .primitiveValue s _ _ => s
  | .promisedValue s _ _ => s
  | .placeholderValue s _ _ => s

/-- The `watchers` list carried by every non-root config value node
(`IBaseConfigValue.watchers` in types.ts). -/
def watchersOf : BaseConfigValue → List WatchFunction
  | .objectValue _ w _ => w
  | .arrayValue _ w _ => w
  | .primitiveValue _ w _ => w
  | .promisedValue _ w _ => w
  | .placeholderValue _ w _ => w

mutual

/-- `p` holds on every node of the tree, array items and object properties
included. -/
def allNodes (p : BaseConfigValue → Bool) : BaseConfigValue → Bool
  | .objectValue s w ps => p (.objectValue s w ps) && allNodesProps p ps
  | .arrayValue s w its => p (.arrayValue s w its) && allNodesItems p its
  | .primitiveValue s w v => p (.primitiveValue s w v)
  | .promisedValue s w id => p (.promisedValue s w id)
  | .placeholderValue s w ph => p (.placeholderValue s w ph)

/-- `p` holds on every node below every property of the list. -/
def allNodesProps (p : BaseConfigValue → Bool) :
    List (String × BaseConfigValue) → Bool
  | [] => true
  | (_, v) :: rest => allNodes p v && allNodesProps p rest

/-- `p` holds on every node below every item of the list. -/
def allNodesItems (p : BaseConfigValue → Bool) : List BaseConfigValue → Bool
  | [] => true
  | v :: rest => allNodes p v && allNodesItems p rest

end

theorem liftItems_map (s : ISource) (items : List JsonValue) :
    liftItems s items = items.map (lift s) := by
  induction items with
  | nil => simp [liftItems]
  | cons hd tl ih => simp [liftItems, ih]

theorem liftProps_map (s : ISource) (props : List (String × JsonValue)) :
    liftProps s props = props.map (fun pr => (pr.1, lift s pr.2)) := by
  induction props with
  | nil => simp [liftProps]
  | cons hd tl ih =>
      obtain ⟨k, v⟩ := hd
      simp [liftProps, ih]

mutual

theorem lift_source (s : ISource) :
    (j : JsonValue) →
      allNodes (fun v => sourceOf v == s) (lift s j) = true
  | .str v => by simp [lift, allNodes, sourceOf]
  | .num v => by simp [lift, allNodes, sourceOf]
  | .bool v => by simp [lift, allNodes, sourceOf]
  | .deferred id => by simp [lift, allNodes, sourceOf]
  | .arr items => by
      simp [lift, allNodes, sourceOf]
      exact liftItems_source s items
  | .obj props => by
      cases hp : parsePlaceholder props with
      | some p => simp [lift, hp, allNodes, sourceOf]
      | none =>
          simp [lift, hp, allNodes, sourceOf]
          exact liftProps_source s props

theorem liftProps_source (s : ISource) :
    (l : List (String × JsonValue)) →
      allNodesProps (fun v => sourceOf v == s) (liftProps s l) = true
  | [] => by simp [liftProps, allNodesProps]
  | (k, v) :: rest => by
      simp [liftProps, allNodesProps]
      exact ⟨lift_source s v, liftProps_source s rest⟩

theorem liftItems_source (s : ISource) :
    (l : List JsonValue) →
      allNodesItems (fun v => sourceOf v == s) (liftItems s l) = true
  | [] => by simp [liftItems, allNodesItems]
  | v :: rest => by
      simp [liftItems, allNodesItems]
      exact ⟨lift_source s v, liftItems_source s rest⟩

end

mutual

theorem lift_watchers (s : ISource) :
    (j : JsonValue) →
      allNodes (fun v => (watchersOf v).isEmpty) (lift s j) = true
  | .str v => by simp [lift, allNodes, watchersOf]
  | .num v => by simp [lift, allNodes, watchersOf]
  | .bool v => by simp [lift, allNodes, watchersOf]
  | .deferred id => by simp [lift, allNodes, watchersOf]
  | .arr items => by
      simp [lift, allNodes, watchersOf]
      exact liftItems_watchers s items
  | .obj props => by
      cases hp : parsePlaceholder props with
      | some p => simp [lift, hp, allNodes, watchersOf]
      | none =>
          simp [lift, hp, allNodes, watchersOf]
          exact liftProps_watchers s props

theorem liftProps_watchers (s : ISource) :
    (l : List (String × JsonValue)) →
      allNodesProps (fun v => (watchersOf v).isEmpty) (liftProps s l) = true
  | [] => by simp [liftProps, allNodesProps]
  | (k, v) :: rest => by
      simp [liftProps, allNodesProps]
      exact ⟨lift_watchers s v, liftProps_watchers s rest⟩

theorem liftItems_watchers (s : ISource) :
    (l : List JsonValue) →
      allNodesItems (fun v => (watchersOf v).isEmpty) (liftItems s l) = true
  | [] => by simp [liftItems, allNodesItems]
  | v :: rest => by
      simp [liftItems, allNodesItems]
      exact ⟨lift_watchers s v, liftItems_watchers s rest⟩

end

/-- C8: an `Array` node of the lifted config value tree stores its items as
the ordered sequence of lifted `ConfigValue` nodes — lifting maps over the
items exactly as it maps over the properties of a non-placeholder object —
and every node of a lifted tree carries the source tag it was lifted
with. -/
theorem array_items_ordered_tagged (s : ISource) (items : List JsonValue)
    (props : List (String × JsonValue)) (j : JsonValue) :
    lift s (.arr items) = .arrayValue s [] (items.map (lift s))
    ∧ (parsePlaceholder props = none →
       lift s (.obj props) =
         .objectValue s [] (props.map (fun pr => (pr.1, lift s pr.2))))
    ∧ allNodes (fun v => sourceOf v == s) (lift s j) = true := by
  refine ⟨?_, ?_, lift_source s j⟩
  · simp [lift, liftItems_map]
  · intro hp
    simp [lift, hp, liftProps_map]

/-- Witness for C8 at a concrete input: a two-property object is lifted to
an object node with both properties lifted in order. -/
theorem array_items_ordered_tagged_witness :
    lift ⟨.localSource, "default"⟩ (.obj [("a", .num 1), ("b", .str "x")]) =
      .objectValue ⟨.localSource, "default"⟩ []
        [("a", .primitiveValue ⟨.localSource, "default"⟩ [] (.pnum 1)),
         ("b", .primitiveValue ⟨.localSource, "default"⟩ [] (.pstr "x"))] :=
  (array_items_ordered_tagged ⟨.localSource, "default"⟩ []
      [("a", .num 1), ("b", .str "x")] (.num 0)).2.1 rfl

/-- C9: every node of a constructed (lifted) config value tree — object,
array, primitive, promise and placeholder alike — carries a `watchers`
field holding a list of watch callbacks; construction initializes it to the
empty list (the library exposes no watch operation that would ever append
to it: `IDynamicConfig` in types.ts has no watch method). -/
theorem every_node_carries_watchers (s : ISource) (j : JsonValue) :
    allNodes (fun v => (watchersOf v).isEmpty) (lift s j) = true :=
  lift_watchers s j

/-- The error taxonomy of `src/main/errors/index.ts`, embedded as one tagged
union (each class there carries the offending key in its message).
`promiseRejected` models an arbitrary rejection propagated from a pending
computation; `outOfFuel` is the modelling artifact reported when the
explicit recursion budget of the resolver runs out. -/
inductive DynamicConfigError where
  | missingConfigPlaceholder (key : String)
  | dynamicConfigMissingKey (key : String)
  | dynamicConfigInvalidObject (key : String)
  | resolverUnavailable (key : String)
  | missingEnvironmentVariable (key : String)
  | missingProcessVariable (key : String)
  | promiseRejected (id : Nat)
  | outOfFuel
deriving DecidableEq, Repr

/-- `ConfigResolver` from types.ts (`IRemoteResolver | ISecretResolver`):
`{ type: 'remote'|'secret', name, get(key) }`.  `get` is modelled as a pure
map from key to outcome: `some v` when the underlying fetch resolves with
`v`, `none` when it fails or returns nothing.  The startup `init` bulk
payload is out of scope here (its result only feeds the merge). -/
structure ConfigResolver where
  type : ResolverType
  name : String
  get : String → Option JsonValue

/-- `getResolver`-style lookup in the resolver registry: first registered
resolver with the given name (registration order is search order). -/
def lookupResolver (reg : List ConfigResolver) (name : String) :
    Option ConfigResolver :=
  reg.find? (fun r => r.name == name)

/-- The mutable per-instance resolution state: the `(resolverName, key)`
cache of fetched values, and — for stating the invocation-count properties —
the log of underlying resolver `get` invocations, in order. -/
structure ResolveState where
  cache : List ((String × String) × JsonValue)
  callLog : List (String × String)

/-- The state of a freshly created configuration instance. -/
def emptyState : ResolveState := ⟨[], []⟩

/-- Cache lookup keyed by `(resolverName, key)`. -/
def cacheLookup (cache : List ((String × String) × JsonValue))
    (pr : String × String) : Option JsonValue :=
  findProp pr cache

mutual

/-- Modelled from the spec (§4.3 Placeholder Resolver and §4.4 Async Tree
Resolver); the resolver implementation files are not part of the source
tree.  One depth-first resolution pass: primitives are returned unchanged;
object/array children are resolved and the node rebuilt (the first failing
child fails the subtree); a promise is awaited through `penv` (`none` =
rejection) and its value lifted and resolved; a placeholder looks up its
named resolver (`ResolverUnavailable` if absent), is served from the
`(resolverName, key)` cache when possible, otherwise invokes the resolver's
`get` (logged), caching the value on success; on failure the `_default` is
substituted only for a `remote`-typed resolver, otherwise the placeholder
fails with `MissingConfigPlaceholder`.  `fuel` bounds the recursion
(consumed at every step); an exhausted budget reports `outOfFuel`. -/
def resolveValue (reg : List ConfigResolver) (penv : Nat → Option JsonValue) :
    Nat → BaseConfigValue → ResolveState →
    Except DynamicConfigError BaseConfigValue × ResolveState
  | 0, _, st => (.error .outOfFuel, st)
  | fuel + 1, v, st =>
      match v with
      | .primitiveValue s w pv => (.ok (.primitiveValue s w pv), st)
      | .objectValue s w ps =>
          match resolveProps reg penv fuel ps st with
          | (.ok ps', st') => (.ok (.objectValue s w ps'), st')
          | (.error e, st') => (.error e, st')
      | .arrayValue s w its =>
          match resolveItems reg penv fuel its st with
          | (.ok its', st') => (.ok (.arrayValue s w its'), st')
          | (.error e, st') => (.error e, st')
      | .promisedValue s _w id =>
          match penv id with
          | some jv => resolveValue reg penv fuel (lift s jv) st
          | none => (.error (.promiseRejected id), st)
      | .placeholderValue s _w p =>
          match lookupResolver reg p.source with
          | none => (.error (.resolverUnavailable p.key), st)
          | some r =>
              match cacheLookup st.cache (r.name, p.key) with
              | some jv => resolveValue reg penv fuel (lift s jv) st
              | none =>
                  match r.get p.key with
                  | some jv =>
                      resolveValue reg penv fuel (lift s jv)
                        ⟨st.cache ++ [((r.name, p.key), jv)],
                         st.callLog ++ [(r.name, p.key)]⟩
                  | none =>
                      match p.defaultVal, r.type with
                      | some d, .remote =>
                          resolveValue reg penv fuel (lift s d)
                            ⟨st.cache, st.callLog ++ [(r.name, p.key)]⟩
                      | _, _ =>
                          (.error (.missingConfigPlaceholder p.key),
                           ⟨st.cache, st.callLog ++ [(r.name, p.key)]⟩)

/-- Modelled from the spec (§4.4): resolution of an object's property list,
threading the cache state left-to-right (the deterministic schedule of the
single-threaded cooperative fan-out); the first failing property fails the
list. -/
def resolveProps (reg : List ConfigResolver) (penv : Nat → Option JsonValue) :
    Nat → List (String × BaseConfigValue) → ResolveState →
    Except DynamicConfigError (List (String × BaseConfigValue)) × ResolveState
  | 0, _, st => (.error .outOfFuel, st)
  | _ + 1, [], st => (.ok [], st)
  | fuel + 1, (k, v) :: rest, st =>
      match resolveValue reg penv fuel v st with
      | (.ok v', st') =>
          match resolveProps reg penv fuel rest st' with
          | (.ok rest', st'') => (.ok ((k, v') :: rest'), st'')
          | (.error e, st'') => (.error e, st'')
      | (.error e, st') => (.error e, st')

/-- Modelled from the spec (§4.4): resolution of an array's items, in
order; the first failing item fails the list. -/
def resolveItems (reg : List ConfigResolver) (penv : Nat → Option JsonValue) :
    Nat → List BaseConfigValue → ResolveState →
    Except DynamicConfigError (List BaseConfigValue) × ResolveState
  | 0, _, st => (.error .outOfFuel, st)
  | _ + 1, [], st => (.ok [], st)
  | fuel + 1, v :: rest, st =>
      match resolveValue reg penv fuel v st with
      | (.ok v', st') =>
          match resolveItems reg penv fuel rest st' with
          | (.ok rest', st'') => (.ok (v' :: rest'), st'')
          | (.error e, st'') => (.error e, st'')
      | (.error e, st') => (.error e, st')

end

/-- Modelled from the spec (§4.4): resolution of the `Root` node — its
property list resolved like an object's. -/
def resolveRoot (reg : List ConfigResolver) (penv : Nat → Option JsonValue)
    (fuel : Nat) (root : IRootConfigValue) (st : ResolveState) :
    Except DynamicConfigError IRootConfigValue × ResolveState :=
  match resolveProps reg penv fuel root.properties st with
  | (.ok ps', st') => (.ok ⟨ps'⟩, st')
  | (.error e, st') => (.error e, st')

/-- A sequence of resolution passes (startup resolution plus the lazy
re-resolutions triggered by later queries) over the lifetime of one
configuration instance, starting from the fresh instance state. -/
def runResolutions (reg : List ConfigResolver) (penv : Nat → Option JsonValue)
    (fuel : Nat) (trees : List BaseConfigValue) : ResolveState :=
  trees.foldl (fun st t => (resolveValue reg penv fuel t st).2) emptyState

/-- The registry can actually serve the `(resolverName, key)` pair: the
named resolver is registered and its underlying fetch for that key
succeeds. -/
def SucceedsOn (reg : List ConfigResolver) (pr : String × String) : Prop :=
  ∃ r, lookupResolver reg pr.1 = some r ∧ (r.get pr.2).isSome = true

/-- Invariant of the per-instance resolution state: every successfully
fetchable pair that was ever invoked is in the cache, and has been invoked
at most once. -/
def CacheConsistent (reg : List ConfigResolver) (st : ResolveState) : Prop :=
  ∀ pr : String × String, SucceedsOn reg pr →
    (pr ∈ st.callLog → (cacheLookup st.cache pr).isSome = true)
    ∧ st.callLog.count pr ≤ 1

theorem lookupResolver_name (reg : List ConfigResolver) (n : String)
    (r : ConfigResolver) (h : lookupResolver reg n = some r) : r.name = n := by
  have := List.find?_some h
  simpa using this

theorem cacheLookup_mono (c d : List ((String × String) × JsonValue))
    (pr : String × String) (h : (cacheLookup c pr).isSome = true) :
    (cacheLookup (c ++ d) pr).isSome = true := by
  unfold cacheLookup at *
  rw [findProp_append]
  cases hc : findProp pr c <;> simp [hc] at h ⊢

theorem cacheLookup_append_self (c : List ((String × String) × JsonValue))
    (pr : String × String) (v : JsonValue) (h : cacheLookup c pr = none) :
    cacheLookup (c ++ [(pr, v)]) pr = some v := by
  unfold cacheLookup at *
  rw [findProp_append, h]
  simp [findProp]

theorem cacheConsistent_log_success {reg : List ConfigResolver}
    {st : ResolveState} {pr0 : String × String} (v : JsonValue)
    (h : CacheConsistent reg st) (hm : cacheLookup st.cache pr0 = none) :
    CacheConsistent reg
      ⟨st.cache ++ [(pr0, v)], st.callLog ++ [pr0]⟩ := by
  intro pr hs
  obtain ⟨hmem, hcount⟩ := h pr hs
  constructor
  · intro hin
    rcases List.mem_append.mp hin with hin | hin
    · exact cacheLookup_mono _ _ _ (hmem hin)
    · have he : pr = pr0 := by simpa using hin
      subst he
      rw [cacheLookup_append_self _ _ v hm]
      rfl
  · show (st.callLog ++ [pr0]).count pr ≤ 1
    rw [List.count_append]
    by_cases he : pr = pr0
    · subst he
      have h0 : pr ∉ st.callLog := by
        intro hin
        have := hmem hin
        rw [hm] at this
        simp at this
      have hz : st.callLog.count pr = 0 := by
        exact List.count_eq_zero.mpr h0
      simp [hz]
    · have hz : List.count pr [pr0] = 0 := by
        simp [List.count_singleton', he]
      omega

theorem cacheConsistent_log_failure {reg : List ConfigResolver}
    {st : ResolveState} {n k : String} {r : ConfigResolver}
    (hr : lookupResolver reg n = some r) (hg : r.get k = none)
    (h : CacheConsistent reg st) :
    CacheConsistent reg ⟨st.cache, st.callLog ++ [(r.name, k)]⟩ := by
  have hnot : ¬ SucceedsOn reg (r.name, k) := by
    rintro ⟨r', hr', hg'⟩
    rw [lookupResolver_name reg n r hr] at hr'
    rw [hr] at hr'
    cases hr'
    rw [hg] at hg'
    simp at hg'
  intro pr hs
  obtain ⟨hmem, hcount⟩ := h pr hs
  have hne : pr ≠ (r.name, k) := fun he => hnot (he ▸ hs)
  constructor
  · intro hin
    rcases List.mem_append.mp hin with hin | hin
    · exact hmem hin
    · exact absurd (by simpa using hin) hne
  · show (st.callLog ++ [(r.name, k)]).count pr ≤ 1
    rw [List.count_append]
    have hz : List.count pr [(r.name, k)] = 0 := by
      simp [List.count_singleton', hne]
    omega

theorem resolve_preserves_consistency (reg : List ConfigResolver)
    (penv : Nat → Option JsonValue) : ∀ fuel : Nat,
    (∀ v st, CacheConsistent reg st →
       CacheConsistent reg (resolveValue reg penv fuel v st).2)
    ∧ (∀ l st, CacheConsistent reg st →
       CacheConsistent reg (resolveProps reg penv fuel l st).2)
    ∧ (∀ l st, CacheConsistent reg st →
       CacheConsistent reg (resolveItems reg penv fuel l st).2) := by
  intro fuel
  induction fuel with
  | zero =>
      refine ⟨?_, ?_, ?_⟩ <;> intro a st hst <;>
        simpa [resolveValue, resolveProps, resolveItems] using hst
  | succ n ih =>
      obtain ⟨ihv, ihp, ihi⟩ := ih
      refine ⟨?_, ?_, ?_⟩
      · intro v st hst
        cases v with
        | primitiveValue s w pv => simpa [resolveValue] using hst
        | objectValue s w ps =>
            have h2 := ihp ps st hst
            simp only [resolveValue]
            rcases hr : resolveProps reg penv n ps st with ⟨res, st2⟩
            rw [hr] at h2
            cases res <;> simpa using h2
        | arrayValue s w its =>
            have h2 := ihi its st hst
            simp only [resolveValue]
            rcases hr : resolveItems reg penv n its st with ⟨res, st2⟩
            rw [hr] at h2
            cases res <;> simpa using h2
        | promisedValue s w id =>
            simp only [resolveValue]
            cases hp : penv id with
            | some jv =>
                dsimp only
                exact ihv _ _ hst
            | none => simpa using hst
        | placeholderValue s w p =>
            simp only [resolveValue]
            cases hlr : lookupResolver reg p.source with
            | none => simpa using hst
            | some r =>
                dsimp only
                cases hcl : cacheLookup st.cache (r.name, p.key) with
                | some jv =>
                    dsimp only
                    exact ihv _ _ hst
                | none =>
                    dsimp only
                    cases hg : r.get p.key with
                    | some jv =>
                        dsimp only
                        exact ihv _ _
                          (cacheConsistent_log_success jv hst hcl)
                    | none =>
                        dsimp only
                        have hfail :=
                          cacheConsistent_log_failure hlr hg hst
                        cases hd : p.defaultVal with
                        | some d =>
                            cases ht : r.type with
                            | remote =>
                                dsimp only
                                exact ihv _ _ hfail
                            | secret => simpa using hfail
                        | none => cases ht : r.type <;> simpa using hfail
      · intro l st hst
        cases l with
        | nil => simpa [resolveProps] using hst
        | cons hd tl =>
            obtain ⟨k, v⟩ := hd
            have h1 := ihv v st hst
            simp only [resolveProps]
            rcases hr : resolveValue reg penv n v st with ⟨res, st2⟩
            rw [hr] at h1
            cases res with
            | ok v' =>
                have h2 := ihp tl st2 h1
                rcases hr2 : resolveProps reg penv n tl st2 with ⟨res2, st3⟩
                rw [hr2] at h2
                cases res2 <;> simpa [hr2] using h2
            | error e => simpa using h1
      · intro l st hst
        cases l with
        | nil => simpa [resolveItems] using hst
        | cons v tl =>
            have h1 := ihv v st hst
            simp only [resolveItems]
            rcases hr : resolveValue reg penv n v st with ⟨res, st2⟩
            rw [hr] at h1
            cases res with
            | ok v' =>
                have h2 := ihi tl st2 h1
                rcases hr2 : resolveItems reg penv n tl st2 with ⟨res2, st3⟩
                rw [hr2] at h2
                cases res2 <;> simpa [hr2] using h2
            | error e => simpa using h1

theorem runResolutions_consistent (reg : List ConfigResolver)
    (penv : Nat → Option JsonValue) (fuel : Nat)
    (trees : List BaseConfigValue) :
    CacheConsistent reg (runResolutions reg penv fuel trees) := by
  have hstep := (resolve_preserves_consistency reg penv fuel).1
  have hempty : CacheConsistent reg emptyState := by
    intro pr _
    constructor
    · intro hin
      simp [emptyState] at hin
    · simp [emptyState]
  unfold runResolutions
  generalize emptyState = st at hempty ⊢
  induction trees generalizing st with
  | nil => simpa using hempty
  | cons t rest ih =>
      simp only [List.foldl_cons]
      exact ih _ (hstep t st hempty)

/-- C2: a placeholder whose named resolver is registered with type `secret`
fails with `MissingConfigPlaceholder` whenever the underlying fetch fails or
returns nothing, regardless of any `_default` carried by the placeholder —
the default is never substituted for a secret-typed source. -/
theorem secret_default_ignored (reg : List ConfigResolver)
    (penv : Nat → Option JsonValue) (fuel : Nat) (s : ISource)
    (w : List WatchFunction) (p : IConfigPlaceholder) (st : ResolveState)
    (r : ConfigResolver)
    (hr : lookupResolver reg p.source = some r)
    (ht : r.type = ResolverType.secret)
    (hg : r.get p.key = none)
    (hc : cacheLookup st.cache (r.name, p.key) = none) :
    resolveValue reg penv (fuel + 1) (.placeholderValue s w p) st =
      (.error (.missingConfigPlaceholder p.key),
       ⟨st.cache, st.callLog ++ [(r.name, p.key)]⟩) := by
  simp only [resolveValue, hr, hc, hg]
  cases hd : p.defaultVal <;> rw [ht]

/-- A secret resolver whose underlying store always fails. -/
def cSecretReg : List ConfigResolver :=
  [{ type := .secret, name := "vault", get := fun _ => none }]

/-- A secret-typed placeholder that carries a `_default`. -/
def cSecretPh : IConfigPlaceholder :=
  ⟨"vault", "password", none, some (.str "fallback")⟩

/-- A promise environment in which every pending computation rejects. -/
def cPenvNone : Nat → Option JsonValue := fun _ => none

/-- Witness for C2 at a concrete input: the `vault`-backed placeholder has
`_default: "fallback"`, the fetch fails, and resolution still fails with
`MissingConfigPlaceholder`. -/
theorem secret_default_ignored_witness :
    resolveValue cSecretReg cPenvNone 5
      (.placeholderValue ⟨.secretSource, "vault"⟩ [] cSecretPh) emptyState =
      (.error (.missingConfigPlaceholder "password"),
       ⟨[], [("vault", "password")]⟩) := by
  simpa using
    secret_default_ignored cSecretReg cPenvNone 4 ⟨.secretSource, "vault"⟩ []
      cSecretPh emptyState
      { type := .secret, name := "vault", get := fun _ => none }
      rfl rfl rfl rfl

/-- C3 (amended): over the lifetime of one configuration instance — any
sequence of resolution passes starting from the fresh state — a
`(resolver name, key)` pair whose underlying fetch succeeds is invoked on
the underlying resolver's `get` at most once; later resolutions of that
pair are served from the cache.  (A pair whose fetch fails is not cached
and may be invoked again; see the counterexample.) -/
theorem resolver_get_at_most_once_on_success (reg : List ConfigResolver)
    (penv : Nat → Option JsonValue) (fuel : Nat)
    (trees : List BaseConfigValue) (pr : String × String)
    (h : SucceedsOn reg pr) :
    (runResolutions reg penv fuel trees).callLog.count pr ≤ 1 :=
  ((runResolutions_consistent reg penv fuel trees) pr h).2

/-- A remote resolver whose underlying store answers every key. -/
def cOkReg : List ConfigResolver :=
  [{ type := .remote, name := "consul", get := fun _ => some (.num 7) }]

/-- A placeholder referencing `consul`/`server-port` (no default). -/
def cOkPh : BaseConfigValue :=
  .placeholderValue ⟨.remoteSource, "consul"⟩ []
    ⟨"consul", "server-port", some .number, none⟩

/-- An object containing two placeholders for the same
`(resolverName, key)` pair. -/
def cTwoPh : BaseConfigValue :=
  .objectValue ⟨.localSource, "production"⟩ []
    [("a", cOkPh), ("b", cOkPh)]

/-- Witness for C3 (amended) at a concrete input: the pair
`("consul","server-port")` is fetchable, and across a resolution pass over
a tree that references it twice the underlying `get` runs at most once. -/
theorem resolver_get_at_most_once_on_success_witness :
    SucceedsOn cOkReg ("consul", "server-port")
    ∧ (runResolutions cOkReg cPenvNone 6 [cTwoPh]).callLog.count
        ("consul", "server-port") ≤ 1 :=
  ⟨⟨{ type := .remote, name := "consul", get := fun _ => some (.num 7) },
     rfl, rfl⟩,
   resolver_get_at_most_once_on_success cOkReg cPenvNone 6 [cTwoPh]
     ("consul", "server-port")
     ⟨{ type := .remote, name := "consul", get := fun _ => some (.num 7) },
      rfl, rfl⟩⟩

/-- A remote resolver whose underlying store always fails. -/
def cFailReg : List ConfigResolver :=
  [{ type := .remote, name := "consul", get := fun _ => none }]

/-- A defaulted placeholder for `consul`/`server-port`. -/
def cDefaultedPh : BaseConfigValue :=
  .placeholderValue ⟨.remoteSource, "consul"⟩ []
    ⟨"consul", "server-port", some .number, some (.num 8080)⟩

/-- An object referencing the same `(resolverName, key)` pair through two
defaulted placeholders. -/
def cTwoDefaultedPh : BaseConfigValue :=
  .objectValue ⟨.localSource, "production"⟩ []
    [("a", cDefaultedPh), ("b", cDefaultedPh)]

/-- Counterexample to C3 as stated: in a single successful resolution pass
over a tree with two placeholders for the same `(resolverName, key)` pair,
a failing fetch is not cached (only successful fetches are cached, §4.3),
so the underlying `get` is invoked twice for that pair — more than "at most
once ... regardless of how many placeholders reference that pair". -/
theorem resolver_get_invoked_twice_counterexample :
    (runResolutions cFailReg cPenvNone 6 [cTwoDefaultedPh]).callLog.count
        ("consul", "server-port") = 2
    ∧ ¬ ((runResolutions cFailReg cPenvNone 6 [cTwoDefaultedPh]).callLog.count
        ("consul", "server-port") ≤ 1) := by
  constructor <;> decide

mutual

/-- A fully resolved (concrete) tree node: no `Promise` or `Placeholder`
node remains at any depth (spec glossary: "Concrete value"). -/
def isConcrete : BaseConfigValue → Bool
  | .objectValue _ _ ps => isConcreteProps ps
  | .arrayValue _ _ its => isConcreteItems its
  | .primitiveValue _ _ _ => true
  | .promisedValue _ _ _ => false
  | .placeholderValue _ _ _ => false

/-- Every property value of the list is concrete. -/
def isConcreteProps : List (String × BaseConfigValue) → Bool
  | [] => true
  | (_, v) :: rest => isConcrete v && isConcreteProps rest

/-- Every item of the list is concrete. -/
def isConcreteItems : List BaseConfigValue → Bool
  | [] => true
  | v :: rest => isConcrete v && isConcreteItems rest

end

theorem resolve_ok_concrete (reg : List ConfigResolver)
    (penv : Nat → Option JsonValue) : ∀ fuel : Nat,
    (∀ v st v' st', resolveValue reg penv fuel v st = (.ok v', st') →
       isConcrete v' = true)
    ∧ (∀ l st l' st', resolveProps reg penv fuel l st = (.ok l', st') →
       isConcreteProps l' = true)
    ∧ (∀ l st l' st', resolveItems reg penv fuel l st = (.ok l', st') →
       isConcreteItems l' = true) := by
  intro fuel
  induction fuel with
  | zero =>
      refine ⟨?_, ?_, ?_⟩ <;> intro a st a' st' h <;>
        simp [resolveValue, resolveProps, resolveItems] at h
  | succ n ih =>
      obtain ⟨ihv, ihp, ihi⟩ := ih
      refine ⟨?_, ?_, ?_⟩
      · intro v st v' st' h
        cases v with
        | primitiveValue s w pv =>
            simp only [resolveValue, Prod.mk.injEq, Except.ok.injEq] at h
            obtain ⟨rfl, rfl⟩ := h
            simp [isConcrete]
        | objectValue s w ps =>
            simp only [resolveValue] at h
            rcases hr : resolveProps reg penv n ps st with ⟨res, st2⟩
            rw [hr] at h
            cases res with
            | ok ps' =>
                simp only [Prod.mk.injEq, Except.ok.injEq] at h
                obtain ⟨rfl, rfl⟩ := h
                simpa [isConcrete] using ihp ps st ps' st2 hr
            | error e => simp at h
        | arrayValue s w its =>
            simp only [resolveValue] at h
            rcases hr : resolveItems reg penv n its st with ⟨res, st2⟩
            rw [hr] at h
            cases res with
            | ok its' =>
                simp only [Prod.mk.injEq, Except.ok.injEq] at h
                obtain ⟨rfl, rfl⟩ := h
                simpa [isConcrete] using ihi its st its' st2 hr
            | error e => simp at h
        | promisedValue s w id =>
            simp only [resolveValue] at h
            cases hp : penv id with
            | some jv =>
                rw [hp] at h
                exact ihv _ _ _ _ h
            | none =>
                rw [hp] at h
                simp at h
        | placeholderValue s w p =>
            simp only [resolveValue] at h
            cases hlr : lookupResolver reg p.source with
            | none =>
                rw [hlr] at h
                simp at h
            | some r =>
                rw [hlr] at h
                dsimp only at h
                cases hcl : cacheLookup st.cache (r.name, p.key) with
                | some jv =>
                    rw [hcl] at h
                    exact ihv _ _ _ _ h
                | none =>
                    rw [hcl] at h
                    dsimp only at h
                    cases hg : r.get p.key with
                    | some jv =>
                        rw [hg] at h
                        exact ihv _ _ _ _ h
                    | none =>
                        rw [hg] at h
                        dsimp only at h
                        cases hd : p.defaultVal with
                        | some d =>
                            rw [hd] at h
                            cases ht : r.type with
                            | remote =>
                                rw [ht] at h
                                exact ihv _ _ _ _ h
                            | secret =>
                                rw [ht] at h
                                simp at h
                        | none =>
                            rw [hd] at h
                            cases ht : r.type <;> rw [ht] at h <;> simp at h
      · intro l st l' st' h
        cases l with
        | nil =>
            simp only [resolveProps, Prod.mk.injEq, Except.ok.injEq] at h
            obtain ⟨rfl, rfl⟩ := h
            simp [isConcreteProps]
        | cons hd tl =>
            obtain ⟨k, v⟩ := hd
            simp only [resolveProps] at h
            rcases hr : resolveValue reg penv n v st with ⟨res, st2⟩
            rw [hr] at h
            cases res with
            | ok v' =>
                dsimp only at h
                rcases hr2 : resolveProps reg penv n tl st2 with ⟨res2, st3⟩
                rw [hr2] at h
                cases res2 with
                | ok rest' =>
                    simp only [Prod.mk.injEq, Except.ok.injEq] at h
                    obtain ⟨rfl, rfl⟩ := h
                    simp only [isConcreteProps, Bool.and_eq_true]
                    exact ⟨ihv v st v' st2 hr, ihp tl st2 rest' st3 hr2⟩
                | error e => simp at h
            | error e => simp at h
      · intro l st l' st' h
        cases l with
        | nil =>
            simp only [resolveItems, Prod.mk.injEq, Except.ok.injEq] at h
            obtain ⟨rfl, rfl⟩ := h
            simp [isConcreteItems]
        | cons v tl =>
            simp only [resolveItems] at h
            rcases hr : resolveValue reg penv n v st with ⟨res, st2⟩
            rw [hr] at h
            cases res with
            | ok v' =>
                dsimp only at h
                rcases hr2 : resolveItems reg penv n tl st2 with ⟨res2, st3⟩
                rw [hr2] at h
                cases res2 with
                | ok rest' =>
                    simp only [Prod.mk.injEq, Except.ok.injEq] at h
                    obtain ⟨rfl, rfl⟩ := h
                    simp only [isConcreteItems, Bool.and_eq_true]
                    exact ⟨ihv v st v' st2 hr, ihi tl st2 rest' st3 hr2⟩
                | error e => simp at h
            | error e => simp at h

/-- Split of a dotted key into its path segments (`'a.b.c'` into
`a`, `b`, `c`); explicit accumulator recursion over the characters. -/
def splitDotted : List Char → List Char → List String
  | [], cur => [String.mk cur.reverse]
  | c :: rest, cur =>
      if c = '.' then String.mk cur.reverse :: splitDotted rest []
      else splitDotted rest (c :: cur)

/-- Modelled from the spec (§4.1): dotted-path split of a query key. -/
def splitKey (k : String) : List String := splitDotted k.data []

/-- Modelled from the spec (§4.1): traversal of a tree node by path
segments, descending through `Object` properties; "not found" is `none`. -/
def getValueAtPath : List String → BaseConfigValue → Option BaseConfigValue
  | [], v => some v
  | k :: rest, .objectValue _ _ ps =>
      match findProp k ps with
      | some v => getValueAtPath rest v
      | none => none
  | _ :: _, _ => none

/-- Modelled from the spec (§4.1): traversal from the `Root` node. -/
def rootAtPath (path : List String) (root : IRootConfigValue) :
    Option BaseConfigValue :=
  match path with
  | [] => none
  | k :: rest =>
      match findProp k root.properties with
      | some v => getValueAtPath rest v
      | none => none

/-- Modelled from the spec (§4.1, §4.6) and the `get<T>(key?: string)`
signature of `IDynamicConfig` in types.ts: an omitted key denotes the empty
dotted path, resolving to the whole `Root`; a present key is split on dots
and traversed. -/
def getValueForKey (key : Option String) (root : IRootConfigValue) :
    Option ConfigValue :=
  match key with
  | none => some (.ofRoot root)
  | some k => (rootAtPath (splitKey k) root).map ConfigValue.ofBase

/-- Modelled from the spec (§4.6 Query Facade): `get` resolves the dotted
path against the concrete tree and fails with `DynamicConfigMissingKey`
when the path is absent (never a silently returned null). -/
def dcGet (root : IRootConfigValue) (key : Option String) :
    Except DynamicConfigError ConfigValue :=
  match getValueForKey key root with
  | some v => .ok v
  | none => .error (.dynamicConfigMissingKey (key.getD ""))

/-- `true` on a successful result. -/
def isOkE {α : Type} : Except DynamicConfigError α → Bool
  | .ok _ => true
  | .error _ => false

/-- Modelled from the spec (§4.6): `getAll(paths...)` resolves every path
and succeeds only if all succeed, failing with the first encountered error
(already-resolved values for the other paths are discarded: an error result
carries no values). -/
def getAll (root : IRootConfigValue) :
    List String → Except DynamicConfigError (List ConfigValue)
  | [] => .ok []
  | p :: rest =>
      match dcGet root (some p) with
      | .error e => .error e
      | .ok v =>
          match getAll root rest with
          | .error e => .error e
          | .ok vs => .ok (v :: vs)

theorem isConcreteProps_find (ps : List (String × BaseConfigValue))
    (k : String) (v : BaseConfigValue) (hc : isConcreteProps ps = true)
    (hf : findProp k ps = some v) : isConcrete v = true := by
  induction ps with
  | nil => simp [findProp] at hf
  | cons hd tl ih =>
      obtain ⟨k₁, v₁⟩ := hd
      simp only [isConcreteProps, Bool.and_eq_true] at hc
      by_cases h : k₁ == k
      · simp only [findProp, h, if_pos] at hf
        cases hf
        exact hc.1
      · simp only [findProp, h, if_neg, Bool.false_eq_true,
          not_false_eq_true] at hf
        exact ih hc.2 hf

theorem concrete_at_path : ∀ (path : List String) (v u : BaseConfigValue),
    isConcrete v = true → getValueAtPath path v = some u →
    isConcrete u = true := by
  intro path
  induction path with
  | nil =>
      intro v u hc h
      simp only [getValueAtPath, Option.some.injEq] at h
      exact h ▸ hc
  | cons k rest ih =>
      intro v u hc h
      cases v with
      | objectValue s w ps =>
          simp only [getValueAtPath] at h
          cases hf : findProp k ps with
          | some v₁ =>
              rw [hf] at h
              exact ih v₁ u
                (isConcreteProps_find ps k v₁ (by simpa [isConcrete] using hc) hf)
                h
          | none => rw [hf] at h; simp at h
      | arrayValue s w its => simp [getValueAtPath] at h
      | primitiveValue s w pv => simp [getValueAtPath] at h
      | promisedValue s w id => simp [getValueAtPath] at h
      | placeholderValue s w p => simp [getValueAtPath] at h

/-- C5: when startup resolution succeeds, the resolved tree is fully
concrete, and therefore every value a successful `get` returns contains no
remaining `Placeholder` or `Promise` node at any depth. -/
theorem get_returns_concrete (reg : List ConfigResolver)
    (penv : Nat → Option JsonValue) (fuel : Nat)
    (root root' : IRootConfigValue) (st st' : ResolveState) (k : String)
    (u : BaseConfigValue)
    (hres : resolveRoot reg penv fuel root st = (.ok root', st'))
    (hget : dcGet root' (some k) = .ok (.ofBase u)) :
    isConcreteProps root'.properties = true ∧ isConcrete u = true := by
  have hconc : isConcreteProps root'.properties = true := by
    unfold resolveRoot at hres
    rcases hr : resolveProps reg penv fuel root.properties st with ⟨res, st2⟩
    rw [hr] at hres
    cases res with
    | ok ps' =>
        simp only [Prod.mk.injEq, Except.ok.injEq] at hres
        obtain ⟨rfl, rfl⟩ := hres
        exact (resolve_ok_concrete reg penv fuel).2.1 _ _ _ _ hr
    | error e => simp at hres
  refine ⟨hconc, ?_⟩
  have hpath : rootAtPath (splitKey k) root' = some u := by
    unfold dcGet getValueForKey at hget
    dsimp only at hget
    cases hp : rootAtPath (splitKey k) root' with
    | some v =>
        rw [hp] at hget
        simp only [Option.map_some', Except.ok.injEq, ConfigValue.ofBase.injEq]
          at hget
        simp [hget]
    | none => rw [hp] at hget; simp at hget
  cases hsp : splitKey k with
  | nil => rw [hsp] at hpath; simp [rootAtPath] at hpath
  | cons k₁ rest =>
      rw [hsp] at hpath
      simp only [rootAtPath] at hpath
      cases hf : findProp k₁ root'.properties with
      | some v₁ =>
          rw [hf] at hpath
          exact concrete_at_path rest v₁ u
            (isConcreteProps_find _ _ _ hconc hf) hpath
      | none => rw [hf] at hpath; simp at hpath

/-- A small concrete resolved configuration used by the query witnesses. -/
def cQueryRoot : IRootConfigValue :=
  ⟨[("a", .primitiveValue ⟨.localSource, "default"⟩ [] (.pnum 1))]⟩

/-- Witness for C5 at a concrete input: resolving a primitive-only root
succeeds and the value `get('a')` returns is concrete. -/
theorem get_returns_concrete_witness :
    isConcreteProps cQueryRoot.properties = true
    ∧ isConcrete (.primitiveValue ⟨.localSource, "default"⟩ [] (.pnum 1)) = true :=
  get_returns_concrete cFailReg cPenvNone 4 cQueryRoot cQueryRoot
    emptyState emptyState "a"
    (.primitiveValue ⟨.localSource, "default"⟩ [] (.pnum 1))
    rfl rfl

/-- C7: `get(path)` on a dotted path absent from the resolved tree fails
with `DynamicConfigMissingKey` for that path (a rejected result, never a
silently returned null), and on a present path it returns the found value
successfully — it does not raise that error. -/
theorem get_missing_key_error (root : IRootConfigValue) (k : String) :
    (rootAtPath (splitKey k) root = none →
       dcGet root (some k) = .error (.dynamicConfigMissingKey k))
    ∧ (∀ v, rootAtPath (splitKey k) root = some v →
       dcGet root (some k) = .ok (.ofBase v)) := by
  constructor
  · intro h
    simp [dcGet, getValueForKey, h]
  · intro v h
    simp [dcGet, getValueForKey, h]

/-- Witness for C7 at a concrete input: `get('missing')` on a root binding
only `a` fails with `DynamicConfigMissingKey "missing"`. -/
theorem get_missing_key_error_witness :
    dcGet cQueryRoot (some "missing") =
      .error (.dynamicConfigMissingKey "missing") :=
  (get_missing_key_error cQueryRoot "missing").1 rfl

/-- C10: the public `get` accepts an omitted key (`get<T>(key?: string)` in
types.ts); called with no key it returns the whole resolved configuration
successfully rather than failing with a missing-key error. -/
theorem get_without_key_returns_root (root : IRootConfigValue) :
    dcGet root none = .ok (.ofRoot root) := rfl

theorem getAll_ok_of_all (root : IRootConfigValue) :
    ∀ paths : List String,
    (∀ p ∈ paths, isOkE (dcGet root (some p)) = true) →
    ∃ vs, getAll root paths = .ok vs ∧ vs.length = paths.length := by
  intro paths
  induction paths with
  | nil => intro _; exact ⟨[], rfl, rfl⟩
  | cons p rest ih =>
      intro h
      have hp := h p (by simp)
      cases hd : dcGet root (some p) with
      | error e => rw [hd] at hp; simp [isOkE] at hp
      | ok v =>
          obtain ⟨vs, hvs, hlen⟩ := ih (fun q hq => h q (by simp [hq]))
          exact ⟨v :: vs, by simp [getAll, hd, hvs], by simp [hlen]⟩

theorem getAll_all_of_ok (root : IRootConfigValue) :
    ∀ (paths : List String) (vs : List ConfigValue),
    getAll root paths = .ok vs →
    ∀ p ∈ paths, isOkE (dcGet root (some p)) = true := by
  intro paths
  induction paths with
  | nil => intro vs _ p hp; simp at hp
  | cons q rest ih =>
      intro vs h p hp
      simp only [getAll] at h
      cases hd : dcGet root (some q) with
      | error e => rw [hd] at h; simp at h
      | ok v =>
          rw [hd] at h
          cases hr : getAll root rest with
          | error e => rw [hr] at h; simp at h
          | ok vs' =>
              rcases List.mem_cons.mp hp with rfl | hp'
              · simp [hd, isOkE]
              · exact ih vs' hr p hp'

theorem getAll_first_error (root : IRootConfigValue) :
    ∀ (pre : List String) (p : String) (post : List String)
      (e : DynamicConfigError),
    (∀ q ∈ pre, isOkE (dcGet root (some q)) = true) →
    dcGet root (some p) = .error e →
    getAll root (pre ++ p :: post) = .error e := by
  intro pre
  induction pre with
  | nil =>
      intro p post e _ hp
      simp [getAll, hp]
  | cons q rest ih =>
      intro p post e hok hp
      have hq := hok q (by simp)
      cases hd : dcGet root (some q) with
      | error e' => rw [hd] at hq; simp [isOkE] at hq
      | ok v =>
          have htail := ih p post e (fun r hr => hok r (by simp [hr])) hp
          simp [getAll, hd, htail]

/-- C4: `getAll(paths...)` succeeds — returning one value per path — exactly
when every individual path resolves successfully; when a path fails while
every earlier path succeeds, the whole call rejects with that first
encountered error, and an error result carries no values for the other
paths. -/
theorem getAll_all_or_nothing (root : IRootConfigValue)
    (paths : List String) :
    ((∀ p ∈ paths, isOkE (dcGet root (some p)) = true) →
       ∃ vs, getAll root paths = .ok vs ∧ vs.length = paths.length)
    ∧ (∀ vs, getAll root paths = .ok vs →
       ∀ p ∈ paths, isOkE (dcGet root (some p)) = true)
    ∧ (∀ (pre : List String) (p : String) (post : List String)
         (e : DynamicConfigError),
       paths = pre ++ p :: post →
       (∀ q ∈ pre, isOkE (dcGet root (some q)) = true) →
       dcGet root (some p) = .error e →
       getAll root paths = .error e) := by
  refine ⟨getAll_ok_of_all root paths, getAll_all_of_ok root paths, ?_⟩
  intro pre p post e hpaths hok hp
  subst hpaths
  exact getAll_first_error root pre p post e hok hp

/-- Witness for C4 at a concrete input: `getAll('a','missing')` rejects as
a whole with the `missing` path's error even though `a` alone resolves. -/
theorem getAll_all_or_nothing_witness :
    getAll cQueryRoot ["a", "missing"] =
      .error (.dynamicConfigMissingKey "missing") :=
  (getAll_all_or_nothing cQueryRoot ["a", "missing"]).2.2 ["a"] "missing" []
    (.dynamicConfigMissingKey "missing") rfl (by decide) rfl

end DynamicConfig
